import Mathlib

/-!
Shallow embedding of the CIR telemetry tool `New_ke_xin_du.py`.

The embedding covers the line-oriented ingestion core of the program:

* the serial reader loop (`SerialReader.run`, lines 48-89): lenient byte
  decoding, line emission, and the bounded reconnect policy;
* the multi-pattern line parser inside `RealTimeCIRPlot.handle_line`
  (lines 394-426): four regex grammars tried in a fixed priority order;
* the bounded rolling sample store (`deque(maxlen=500)` buffers, lines
  276-279, mutated in `handle_line` lines 428-440 and cleared in
  `clear_data` lines 607-612);
* the render throttle (lines 282-283 and 445-449).

Modelling conventions: Python floats are modelled as `ℚ` (the numeric
literals of the program and of the test lines are exactly representable);
wall-clock readings are parameters of type `ℚ`; byte strings are
`List ℕ`; text is `List Char`.  The character classes `\d`, `\s` and
`str.strip` are modelled on their ASCII fragment, which is the alphabet
the regex patterns and the telemetry lines use.
-/

/-- ASCII alphanumeric, the class `[A-Za-z0-9]` of the source's regexes. -/
def isAlnum (c : Char) : Bool :=
  (65 ≤ c.toNat && c.toNat ≤ 90) || (97 ≤ c.toNat && c.toNat ≤ 122) ||
    (48 ≤ c.toNat && c.toNat ≤ 57)

/-- ASCII decimal digit, the class `\d` of the source's regexes. -/
def isDigit09 (c : Char) : Bool := 48 ≤ c.toNat && c.toNat ≤ 57

/-- ASCII whitespace: the characters removed by Python's `str.strip()` and
matched by the regex class `\s` (restricted to ASCII). -/
def isPySpace (c : Char) : Bool := c.toNat = 32 || (9 ≤ c.toNat && c.toNat ≤ 13)

/-- Python `str.strip()`: drop whitespace from both ends. -/
def pyStrip (l : List Char) : List Char :=
  ((l.dropWhile isPySpace).reverse.dropWhile isPySpace).reverse

/-- UTF-8 continuation byte (`0x80`-`0xBF`). -/
def contB (b : ℕ) : Bool := 128 ≤ b && b ≤ 191

/-- Valid second byte of a three-byte UTF-8 sequence with lead `b0`
(excludes overlong encodings and surrogates, as CPython does). -/
def second3Ok (b0 b1 : ℕ) : Bool :=
  if b0 = 0xE0 then 0xA0 ≤ b1 && b1 ≤ 0xBF
  else if b0 = 0xED then 0x80 ≤ b1 && b1 ≤ 0x9F
  else contB b1

/-- Valid second byte of a four-byte UTF-8 sequence with lead `b0`
(excludes overlong encodings and code points above `U+10FFFF`). -/
def second4Ok (b0 b1 : ℕ) : Bool :=
  if b0 = 0xF0 then 0x90 ≤ b1 && b1 ≤ 0xBF
  else if b0 = 0xF4 then 0x80 ≤ b1 && b1 ≤ 0x8F
  else contB b1

/-- UTF-8 decoding as performed by Python's `bytes.decode`.  On an invalid
sequence the maximal valid subpart is skipped and `err` is emitted once:
`err = []` models `errors="ignore"` (the call the source makes at line 63)
and `err = ['�']` models `errors="replace"`. -/
def utf8DecodeAux (err : List Char) : ℕ → List ℕ → List Char
  | 0, _ => []
  | _ + 1, [] => []
  | fuel + 1, b0 :: r =>
    if b0 ≤ 0x7F then Char.ofNat b0 :: utf8DecodeAux err fuel r
    else if 0xC2 ≤ b0 && b0 ≤ 0xDF then
      match r with
      | b1 :: r1 =>
        if contB b1 then
          Char.ofNat ((b0 - 0xC0) * 64 + (b1 - 0x80)) :: utf8DecodeAux err fuel r1
        else err ++ utf8DecodeAux err fuel (b1 :: r1)
      | [] => err
    else if 0xE0 ≤ b0 && b0 ≤ 0xEF then
      match r with
      | b1 :: r1 =>
        if second3Ok b0 b1 then
          match r1 with
          | b2 :: r2 =>
            if contB b2 then
              Char.ofNat ((b0 - 0xE0) * 4096 + (b1 - 0x80) * 64 + (b2 - 0x80)) ::
                utf8DecodeAux err fuel r2
            else err ++ utf8DecodeAux err fuel (b2 :: r2)
          | [] => err
        else err ++ utf8DecodeAux err fuel (b1 :: r1)
      | [] => err
    else if 0xF0 ≤ b0 && b0 ≤ 0xF4 then
      match r with
      | b1 :: r1 =>
        if second4Ok b0 b1 then
          match r1 with
          | b2 :: r2 =>
            if contB b2 then
              match r2 with
              | b3 :: r3 =>
                if contB b3 then
                  Char.ofNat ((b0 - 0xF0) * 262144 + (b1 - 0x80) * 4096 +
                      (b2 - 0x80) * 64 + (b3 - 0x80)) :: utf8DecodeAux err fuel r3
                else err ++ utf8DecodeAux err fuel (b3 :: r3)
              | [] => err
            else err ++ utf8DecodeAux err fuel (b2 :: r2)
          | [] => err
        else err ++ utf8DecodeAux err fuel (b1 :: r1)
      | [] => err
    else err ++ utf8DecodeAux err fuel r

/-- UTF-8 decoding of a byte string.  Each fuel-bounded step consumes at
least one byte, so fuel equal to the length of the input gives the full
decode. -/
def utf8Decode (err : List Char) (bs : List ℕ) : List Char :=
  utf8DecodeAux err bs.length bs

/-!
## The line parser

`handle_line` (lines 402-421) tries four regex patterns in order and keeps
the matches of the first pattern with at least one match:

1. `([A-Za-z0-9]+):\s*(-?\d+(?:\.\d+)?)`
2. `([A-Za-z0-9]+)\s*=\s*(-?\d+(?:\.\d+)?)`
3. `([A-Za-z0-9]+)\s*:\s*(-?\d+(?:\.\d+)?)(?:cm|mm|m|°|deg)?`
4. `([A-Za-z0-9]+)\s*=\s*(-?\d+(?:\.\d+)?)(?:cm|mm|m|°|deg)?`

All four share one shape: a key (`[A-Za-z0-9]+`), a separator (`:` or `=`,
with `\s*` around it except that pattern 1 allows no whitespace before the
`:`), a signed decimal value, and for patterns 3 and 4 an optional unit
suffix.  Since the character classes involved (alphanumerics, whitespace,
digits, the separator) are pairwise disjoint, the greedy backtracking
semantics of each pattern reduces to deterministic maximal munch, so the
scanner below computes exactly `re.findall` of the corresponding pattern. -/

structure Grammar where
  spaceBeforeSep : Bool
  sep : Char
  unit : Bool
deriving DecidableEq

/-- The four patterns of `handle_line`, in source priority order. -/
def grammars : List Grammar :=
  [⟨false, ':', false⟩, ⟨true, '=', false⟩, ⟨true, ':', true⟩, ⟨true, '=', true⟩]

theorem length_dropWhile_le_len {α : Type} (p : α → Bool) (l : List α) :
    (l.dropWhile p).length ≤ l.length := by
  induction l with
  | nil => simp
  | cons c t ih =>
    rw [List.dropWhile_cons]
    split
    · simp only [List.length_cons]; omega
    · simp

/-- Conditionally skip `\s*`. -/
def dropSpacesIf (b : Bool) (r : List Char) : List Char :=
  if b then r.dropWhile isPySpace else r

theorem dropSpacesIf_length_le (b : Bool) (r : List Char) :
    (dropSpacesIf b r).length ≤ r.length := by
  cases b <;> simp [dropSpacesIf, length_dropWhile_le_len]

/-- Match `\s*<sep>` (whitespace only when the grammar allows it); return
the remainder after the separator. -/
def sepSplit (g : Grammar) (r1 : List Char) : Option (List Char) :=
  if (dropSpacesIf g.spaceBeforeSep r1).head? = some g.sep then
    some (dropSpacesIf g.spaceBeforeSep r1).tail
  else none

theorem sepSplit_length_lt (g : Grammar) (r1 r3 : List Char)
    (h : sepSplit g r1 = some r3) : r3.length < r1.length := by
  unfold sepSplit at h
  split at h
  · rename_i hc
    have hne : dropSpacesIf g.spaceBeforeSep r1 ≠ [] := by
      intro he; rw [he] at hc; simp at hc
    have hpos : 0 < (dropSpacesIf g.spaceBeforeSep r1).length :=
      List.length_pos.mpr hne
    have hle := dropSpacesIf_length_le g.spaceBeforeSep r1
    have htail : ((dropSpacesIf g.spaceBeforeSep r1).tail).length =
        (dropSpacesIf g.spaceBeforeSep r1).length - 1 := List.length_tail _
    injection h with h'
    rw [h'] at htail
    omega
  · exact absurd h (by simp)

/-- Match the optional sign `-?`. -/
def signSplit (r : List Char) : Bool × List Char :=
  if r.head? = some '-' then (true, r.tail) else (false, r)

theorem signSplit_snd_length_le (r : List Char) : (signSplit r).2.length ≤ r.length := by
  unfold signSplit
  split
  · simp [List.length_tail]
  · simp

/-- Match the optional fractional part `(?:\.\d+)?`: returns the matched
text (empty, or a dot followed by the digits) and the remainder. -/
def fracPart (r : List Char) : List Char × List Char :=
  if r.head? = some '.' ∧ ¬(r.tail.takeWhile isDigit09).isEmpty then
    ('.' :: r.tail.takeWhile isDigit09, r.tail.dropWhile isDigit09)
  else ([], r)

theorem fracPart_snd_length_le (r : List Char) : (fracPart r).2.length ≤ r.length := by
  unfold fracPart
  split
  · have h1 := length_dropWhile_le_len isDigit09 r.tail
    have h2 : (r.tail).length = r.length - 1 := List.length_tail _
    simp only []
    omega
  · simp

/-- Match `\d+(?:\.\d+)?`: the captured text and the remainder. -/
def valueDigits (r5 : List Char) : Option (List Char × List Char) :=
  if (r5.takeWhile isDigit09).isEmpty then none
  else
    some (r5.takeWhile isDigit09 ++ (fracPart (r5.dropWhile isDigit09)).1,
      (fracPart (r5.dropWhile isDigit09)).2)

theorem valueDigits_snd_length_le (r : List Char) (v rest : List Char)
    (h : valueDigits r = some (v, rest)) : rest.length ≤ r.length := by
  unfold valueDigits at h
  split at h
  · exact absurd h (by simp)
  · simp only [Option.some.injEq, Prod.mk.injEq] at h
    obtain ⟨-, hrest⟩ := h
    subst hrest
    have h1 := fracPart_snd_length_le (r.dropWhile isDigit09)
    have h2 := length_dropWhile_le_len isDigit09 r
    omega

/-- Match the optional unit `(?:cm|mm|m|°|deg)?`, alternatives tried in the
source's order. -/
def stripUnit (l : List Char) : List Char :=
  match l with
  | 'c' :: 'm' :: r => r
  | 'm' :: 'm' :: r => r
  | 'm' :: r => r
  | '°' :: r => r
  | 'd' :: 'e' :: 'g' :: r => r
  | _ => l

theorem stripUnit_length_le (l : List Char) : (stripUnit l).length ≤ l.length := by
  unfold stripUnit
  split <;> simp <;> omega

def stripUnitIf (b : Bool) (r : List Char) : List Char :=
  if b then stripUnit r else r

theorem stripUnitIf_length_le (b : Bool) (r : List Char) :
    (stripUnitIf b r).length ≤ r.length := by
  cases b <;> simp [stripUnitIf, stripUnit_length_le]

/-- Match `\s*(-?\d+(?:\.\d+)?)` plus the optional unit, after the
separator: returns the captured value text and the remainder. -/
def afterSep (g : Grammar) (r3 : List Char) : Option (List Char × List Char) :=
  (valueDigits (signSplit (r3.dropWhile isPySpace)).2).map
    (fun p => ((if (signSplit (r3.dropWhile isPySpace)).1 then ['-'] else []) ++ p.1,
      stripUnitIf g.unit p.2))

theorem afterSep_snd_length_le (g : Grammar) (r3 v rest : List Char)
    (h : afterSep g r3 = some (v, rest)) : rest.length ≤ r3.length := by
  unfold afterSep at h
  cases hv : valueDigits (signSplit (r3.dropWhile isPySpace)).2 with
  | none => rw [hv] at h; exact absurd h (by simp)
  | some p =>
    rw [hv] at h
    simp only [Option.map_some', Option.some.injEq, Prod.mk.injEq] at h
    obtain ⟨-, hrest⟩ := h
    have h1 : rest.length ≤ p.2.length := by
      rw [← hrest]; exact stripUnitIf_length_le _ _
    have h2 : p.2.length ≤ (signSplit (r3.dropWhile isPySpace)).2.length :=
      valueDigits_snd_length_le _ p.1 p.2 (by rw [hv])
    have h3 := signSplit_snd_length_le (r3.dropWhile isPySpace)
    have h4 := length_dropWhile_le_len isPySpace r3
    omega

/-- Try to match grammar `g` at the head of `l`: on success, the captured
(key, value) pair and the remainder of the line after the match. -/
def matchAt (g : Grammar) (l : List Char) : Option ((List Char × List Char) × List Char) :=
  if (l.takeWhile isAlnum).isEmpty then none
  else
    (sepSplit g (l.dropWhile isAlnum)).bind
      (fun r3 => (afterSep g r3).map (fun p => ((l.takeWhile isAlnum, p.1), p.2)))

theorem matchAt_length_lt (g : Grammar) (l : List Char)
    (kv : List Char × List Char) (rest : List Char)
    (h : matchAt g l = some (kv, rest)) : rest.length < l.length := by
  unfold matchAt at h
  split at h
  · exact absurd h (by simp)
  · cases hs : sepSplit g (l.dropWhile isAlnum) with
    | none => rw [hs] at h; exact absurd h (by simp)
    | some r3 =>
      rw [hs] at h
      simp only [Option.some_bind] at h
      cases ha : afterSep g r3 with
      | none => rw [ha] at h; exact absurd h (by simp)
      | some p =>
        rw [ha] at h
        simp only [Option.map_some', Option.some.injEq, Prod.mk.injEq] at h
        obtain ⟨-, hrest⟩ := h
        have h1 : rest.length ≤ r3.length := by
          rw [← hrest]
          exact afterSep_snd_length_le g r3 p.1 p.2 (by rw [ha])
        have h2 := sepSplit_length_lt g (l.dropWhile isAlnum) r3 hs
        have h3 := length_dropWhile_le_len isAlnum l
        omega

/-- Fuel-bounded scan for `re.findall`: record each match and resume after
its end, advance one character on failure.  Every step consumes at least
one character (see `matchAt_length_lt`), so any fuel at least the length
of the line gives the unbounded scan (`findallAux_fuel_irrelevant`). -/
def findallAux (g : Grammar) : ℕ → List Char → List (List Char × List Char)
  | 0, _ => []
  | _ + 1, [] => []
  | fuel + 1, c :: t =>
    match matchAt g (c :: t) with
    | some kvr => kvr.1 :: findallAux g fuel kvr.2
    | none => findallAux g fuel t

/-- Python `re.findall` for one grammar: scan left to right. -/
def findall (g : Grammar) (l : List Char) : List (List Char × List Char) :=
  findallAux g l.length l

theorem findallAux_fuel_irrelevant (g : Grammar) :
    ∀ (n : ℕ) (l : List Char) (f1 f2 : ℕ), l.length ≤ n →
      l.length ≤ f1 → l.length ≤ f2 → findallAux g f1 l = findallAux g f2 l := by
  intro n
  induction n with
  | zero =>
    intro l f1 f2 hn _ _
    have : l = [] := List.length_eq_zero.mp (Nat.le_zero.mp hn)
    subst this
    cases f1 <;> cases f2 <;> rfl
  | succ n ih =>
    intro l f1 f2 hn h1 h2
    cases l with
    | nil => cases f1 <;> cases f2 <;> rfl
    | cons c t =>
      obtain ⟨f1', rfl⟩ : ∃ k, f1 = k + 1 := by
        cases f1 with
        | zero => simp at h1
        | succ k => exact ⟨k, rfl⟩
      obtain ⟨f2', rfl⟩ : ∃ k, f2 = k + 1 := by
        cases f2 with
        | zero => simp at h2
        | succ k => exact ⟨k, rfl⟩
      cases hm : matchAt g (c :: t) with
      | some kvr =>
        have hlt := matchAt_length_lt g (c :: t) kvr.1 kvr.2 (by rw [hm])
        simp only [List.length_cons] at hn h1 h2 hlt
        show (match matchAt g (c :: t) with
          | some kvr => kvr.1 :: findallAux g f1' kvr.2
          | none => findallAux g f1' t) =
          (match matchAt g (c :: t) with
          | some kvr => kvr.1 :: findallAux g f2' kvr.2
          | none => findallAux g f2' t)
        rw [hm]
        exact congrArg (fun x => kvr.1 :: x) (ih kvr.2 f1' f2' (by omega) (by omega) (by omega))
      | none =>
        simp only [List.length_cons] at hn h1 h2
        show (match matchAt g (c :: t) with
          | some kvr => kvr.1 :: findallAux g f1' kvr.2
          | none => findallAux g f1' t) =
          (match matchAt g (c :: t) with
          | some kvr => kvr.1 :: findallAux g f2' kvr.2
          | none => findallAux g f2' t)
        rw [hm]
        exact ih t f1' f2' (by omega) (by omega) (by omega)

/-!
## Numeric conversion and the values dict

Each captured value text has the shape `-?\d+(\.\d+)?`; `handle_line`
converts it with Python's `float` (always successful on that shape; a
`ValueError` would drop the single token and keep the rest, which the
model mirrors by `Option`).  Values are modelled as exact rationals. -/

/-- Digits to a natural number, most significant first. -/
def digitsToNat (l : List Char) : ℕ :=
  l.foldl (fun n c => 10 * n + (c.toNat - 48)) 0

/-- Python `float` restricted to the texts the value grammar can capture:
`-?\d+(\.\d+)?`.  On any other text the conversion is refused (`none`),
modelling the `ValueError` branch of `handle_line`.  The value
`±(ds.fs)` is the exact rational `±(ds·10^|fs| + fs) / 10^|fs|`. -/
def floatOfStr (s : List Char) : Option ℚ :=
  let sign : ℤ := if (signSplit s).1 then -1 else 1
  let body := (signSplit s).2
  let ds := body.takeWhile isDigit09
  if ds.isEmpty then none
  else
    match body.dropWhile isDigit09 with
    | [] => some (mkRat (sign * digitsToNat ds) 1)
    | '.' :: fs =>
      if fs.isEmpty || !fs.all isDigit09 then none
      else
        some (mkRat (sign * (digitsToNat ds * 10 ^ fs.length + digitsToNat fs))
          (10 ^ fs.length))
    | _ => none

/-- Convert the raw `findall` matches: strip each key (`k.strip()` in the
source; keys are alphanumeric so this is the identity) and convert each
value, dropping tokens whose conversion fails. -/
def convPairs (ms : List (List Char × List Char)) : List (List Char × ℚ) :=
  ms.filterMap (fun p => (floatOfStr p.2).map (fun q => (pyStrip p.1, q)))

/-- Python dict assignment `d[k] = v`: overwrite in place if the key is
present, else append. -/
def dictAssign : List (List Char × ℚ) → List Char → ℚ → List (List Char × ℚ)
  | [], k, v => [(k, v)]
  | p :: d, k, v => if p.1 = k then (k, v) :: d else p :: dictAssign d k v

/-- Python dict lookup (first entry with the key; keys are unique by
construction). -/
def dictLookup (d : List (List Char × ℚ)) (k : List Char) : Option ℚ :=
  (d.find? (fun p => p.1 == k)).map (fun p => p.2)

/-- Build the `values` dict of `handle_line` by successive assignment. -/
def buildDict (ps : List (List Char × ℚ)) : List (List Char × ℚ) :=
  ps.foldl (fun d p => dictAssign d p.1 p.2) []

/-- The matches of the first grammar (in priority order) with at least one
match on the line; the `break` of `handle_line`. -/
def firstNonEmpty (l : List Char) : List Grammar → List (List Char × List Char)
  | [] => []
  | g :: gs => if (findall g l).isEmpty then firstNonEmpty l gs else findall g l

def winningMatches (l : List Char) : List (List Char × List Char) :=
  firstNonEmpty l grammars

/-- The parser core of `handle_line` applied to an already-stripped line:
first grammar with a match wins, its tokens are converted and assigned
into a dict in order. -/
def parseLine (l : List Char) : List (List Char × ℚ) :=
  buildDict (convPairs (winningMatches l))

/-- The full parse of a raw line as `handle_line` performs it: strip, and
an empty or unmatched line yields the empty mapping. -/
def parse (line : List Char) : List (List Char × ℚ) :=
  if (pyStrip line).isEmpty then [] else parseLine (pyStrip line)

/-!
## The rolling sample store

`RealTimeCIRPlot.__init__` (lines 276-279) creates `deque(maxlen=500)`
buffers: one per known field plus the shared index and timestamp series.
`handle_line` (lines 428-440) appends one entry to every series per parsed
line (`np.nan` — modelled as `none` — for fields absent from the parsed
values); `clear_data` (lines 607-612) empties every series. -/

/-- The known fields (`self.fields`, line 125). -/
def fields : List (List Char) :=
  ["D".data, "fom".data, "PD01".data, "PD02".data, "PD12".data,
    "azimuth".data, "elevation".data]

structure Store where
  maxSamples : ℕ
  sampleIndices : List ℕ
  timestamps : List ℚ
  buffers : List Char → List (Option ℚ)

/-- Append to a `deque(maxlen=cap)`: push right, evict the leftmost
entries beyond the capacity. -/
def pushBounded (cap : ℕ) (xs : List α) (x : α) : List α :=
  if cap < (xs ++ [x]).length then (xs ++ [x]).drop ((xs ++ [x]).length - cap)
  else xs ++ [x]

/-- The index `handle_line` assigns: previous index plus one, or zero when
the index series is empty (line 430). -/
def nextIndex (s : Store) : ℕ :=
  match s.sampleIndices.getLast? with
  | some i => i + 1
  | none => 0

/-- The store mutation of `handle_line` lines 428-440: push index,
timestamp, and per-field value (`none` models the `np.nan` filler). -/
def appendSample (t : ℚ) (vals : List (List Char × ℚ)) (s : Store) : Store :=
  { maxSamples := s.maxSamples
    sampleIndices := pushBounded s.maxSamples s.sampleIndices (nextIndex s)
    timestamps := pushBounded s.maxSamples s.timestamps t
    buffers := fun f =>
      if f ∈ fields then pushBounded s.maxSamples (s.buffers f) (dictLookup vals f)
      else s.buffers f }

/-- `clear_data` (lines 607-612): every buffer and both shared series are
emptied. -/
def clearData (s : Store) : Store :=
  { maxSamples := s.maxSamples
    sampleIndices := []
    timestamps := []
    buffers := fun f => if f ∈ fields then [] else s.buffers f }

/-- The store as `__init__` builds it: capacity 500, all series empty. -/
def initStore : Store :=
  { maxSamples := 500, sampleIndices := [], timestamps := [], buffers := fun _ => [] }

/-- `handle_line` for one raw line at capture time `t`: parse, and only a
non-empty mapping appends a sample. -/
def handleLine (t : ℚ) (line : List Char) (s : Store) : Store :=
  if (parse line).isEmpty then s else appendSample t (parse line) s

/-- A sequence of appends (each pair is capture time and parsed values). -/
def foldStore (L : List (ℚ × List (List Char × ℚ))) : Store :=
  L.foldl (fun s p => appendSample p.1 p.2 s) initStore

/-!
## The render throttle

Lines 282-283 initialise `last_update_time = 0` and `update_interval =
20` (milliseconds); lines 445-449 redraw only when `now - last > interval`
and update `last_update_time` exactly then. -/

structure Throttle where
  lastUpdateTime : ℚ
  updateInterval : ℚ

/-- One throttle decision at wall-clock `now` (milliseconds): whether to
render, and the throttle state afterwards. -/
def shouldRender (now : ℚ) (th : Throttle) : Bool × Throttle :=
  if th.updateInterval < now - th.lastUpdateTime then
    (true, { lastUpdateTime := now, updateInterval := th.updateInterval })
  else (false, th)

/-- The throttle as `__init__` builds it. -/
def initThrottle : Throttle := { lastUpdateTime := 0, updateInterval := 20 }

/-!
## The serial reader loop

`SerialReader.run` (lines 48-89).  One loop iteration is driven by what
the transport does in it, abstracted as an `IterOutcome`:

* `serialErr` — a `serial.SerialException` is raised (the open attempt
  fails, or the read path fails on an open port);
* `noBytes` — the open (if needed) succeeds and `in_waiting` is zero;
* `lineBytes bs` — the open (if needed) succeeds and `readline` returns
  the byte string `bs`;
* `otherErr` — a non-serial exception is raised.

The observable behaviour per iteration is the list of emitted
`ReaderEvent`s (`openAttempt` marks each call of `serial.Serial`, the
others are the Qt signal emissions and the `time.sleep` calls), the next
reader state, and whether the loop continues (`continue`) or exits
(`break`). -/

inductive IterOutcome
  | serialErr
  | noBytes
  | lineBytes (bs : List ℕ)
  | otherErr
deriving DecidableEq

inductive ReaderEvent
  | openAttempt
  | connected
  | dataReceived (line : List Char)
  | statusRetry (n maxA : ℕ)
  | terminalFailure
  | readErrorStatus
  | sleepMs (ms : ℕ)
deriving DecidableEq

inductive LinkStatus
  | running
  | failed
deriving DecidableEq

structure ReaderState where
  portOpen : Bool
  reconnectCount : ℕ
  status : LinkStatus
deriving DecidableEq

/-- The reader as `__init__` builds it: no port object, counter zero. -/
def initReader : ReaderState :=
  { portOpen := false, reconnectCount := 0, status := LinkStatus.running }

/-- Events of the open attempt at the top of an iteration (lines 56-60):
nothing when the port is already open, otherwise `serial.Serial` is called
and on success `connection_ready` is emitted. -/
def openEvents (st : ReaderState) : List ReaderEvent :=
  if st.portOpen then [] else [ReaderEvent.openAttempt, ReaderEvent.connected]

/-- State after a successful open: port open, reconnect counter reset to
zero (line 60). -/
def afterOpen (st : ReaderState) : ReaderState :=
  if st.portOpen then st
  else { portOpen := true, reconnectCount := 0, status := st.status }

/-- One iteration of the `while self._running` loop. -/
def readerStep (maxA : ℕ) (st : ReaderState) (o : IterOutcome) :
    ReaderState × List ReaderEvent × Bool :=
  match o with
  | IterOutcome.serialErr =>
    -- lines 72-84: the reconnect counter is incremented; while it is within
    -- the bound a retry status is emitted and the loop continues after a 1s
    -- sleep; beyond the bound a terminal failure status is emitted and the
    -- loop breaks.  If the port was not open, the failing call was the open
    -- attempt itself; the exception leaves `self.ser` unchanged.
    (if st.portOpen then [] else [ReaderEvent.openAttempt]) |> fun pre =>
    if st.reconnectCount + 1 ≤ maxA then
      ({ portOpen := st.portOpen, reconnectCount := st.reconnectCount + 1,
          status := st.status },
        pre ++ [ReaderEvent.statusRetry (st.reconnectCount + 1) maxA,
          ReaderEvent.sleepMs 1000], true)
    else
      ({ portOpen := st.portOpen, reconnectCount := st.reconnectCount + 1,
          status := LinkStatus.failed },
        pre ++ [ReaderEvent.terminalFailure], false)
  | IterOutcome.noBytes =>
    -- lines 68-70: nothing pending, sleep 10ms.
    (afterOpen st, openEvents st ++ [ReaderEvent.sleepMs 10], true)
  | IterOutcome.lineBytes bs =>
    -- lines 62-67: decode with errors="ignore", strip, emit iff non-empty.
    (afterOpen st,
      openEvents st ++
        (if (pyStrip (utf8Decode [] bs)).isEmpty then []
         else [ReaderEvent.dataReceived (pyStrip (utf8Decode [] bs))]), true)
  | IterOutcome.otherErr =>
    -- lines 85-89: a non-serial error is reported, 100ms pause, continue;
    -- the reconnect counter is untouched.
    (st, [ReaderEvent.readErrorStatus, ReaderEvent.sleepMs 100], true)

/-- Run the loop over a trace of iteration outcomes; a `break` stops the
run without consuming the rest of the trace. -/
def readerRun (maxA : ℕ) (st : ReaderState) (trace : List IterOutcome) :
    ReaderState × List ReaderEvent :=
  match trace with
  | [] => (st, [])
  | o :: os =>
    if (readerStep maxA st o).2.2 then
      ((readerRun maxA (readerStep maxA st o).1 os).1,
        (readerStep maxA st o).2.1 ++ (readerRun maxA (readerStep maxA st o).1 os).2)
    else ((readerStep maxA st o).1, (readerStep maxA st o).2.1)

def isStatusEvent : ReaderEvent → Bool
  | ReaderEvent.statusRetry _ _ => true
  | _ => false

def isOpenAttemptEvent : ReaderEvent → Bool
  | ReaderEvent.openAttempt => true
  | _ => false

/-!
## Dictionary lemmas -/

theorem dictLookup_nil (k : List Char) : dictLookup [] k = none := rfl

theorem dictLookup_cons (p : List Char × ℚ) (d : List (List Char × ℚ)) (k : List Char) :
    dictLookup (p :: d) k = if p.1 == k then some p.2 else dictLookup d k := by
  unfold dictLookup
  rw [List.find?_cons]
  cases h : (p.1 == k) <;> simp [h]

theorem dictLookup_assign (d : List (List Char × ℚ)) (k' : List Char) (v : ℚ)
    (k : List Char) :
    dictLookup (dictAssign d k' v) k = if k = k' then some v else dictLookup d k := by
  induction d with
  | nil =>
    simp only [dictAssign, dictLookup_cons, dictLookup_nil]
    by_cases h : k = k'
    · simp [h]
    · have h1 : (k' == k) = false := by simpa using fun he => h he.symm
      simp [h1, h]
  | cons p d ih =>
    by_cases hp : p.1 = k'
    · simp only [dictAssign, if_pos hp, dictLookup_cons]
      by_cases h : k = k'
      · simp [h]
      · have h1 : (k' == k) = false := by simpa using fun he => h he.symm
        have h2 : (p.1 == k) = false := by rw [hp]; exact h1
        simp [dictLookup_cons, h1, h2, h]
    · simp only [dictAssign, if_neg hp, dictLookup_cons, ih]
      by_cases h : k = k'
      · have h2 : (p.1 == k) = false := by
          subst h; simpa using hp
        simp [h2, h]
        exact fun he => absurd he hp
      · simp [h]

theorem dictLookup_buildDict (ps : List (List Char × ℚ)) (k : List Char) :
    dictLookup (buildDict ps) k =
      (ps.reverse.find? (fun p => p.1 == k)).map (fun p => p.2) := by
  induction ps using List.reverseRecOn with
  | nil => rfl
  | append_singleton l p ih =>
    have hb : buildDict (l ++ [p]) = dictAssign (buildDict l) p.1 p.2 := by
      simp [buildDict, List.foldl_append]
    rw [hb, dictLookup_assign, List.reverse_append]
    simp only [List.reverse_cons, List.reverse_nil, List.nil_append, List.singleton_append]
    rw [List.find?_cons]
    by_cases h : k = p.1
    · have h1 : (p.1 == k) = true := by simp [h]
      rw [h1, if_pos h]
      simp
    · have h1 : (p.1 == k) = false := by simpa using fun he => h he.symm
      rw [h1, if_neg h, ih]

/-!
## Store lemmas -/

theorem pushBounded_length {α : Type} (cap : ℕ) (xs : List α) (x : α) :
    (pushBounded cap xs x).length = min (xs.length + 1) cap := by
  unfold pushBounded
  split
  · rename_i h
    simp only [List.length_drop, List.length_append, List.length_cons,
      List.length_nil] at *
    omega
  · rename_i h
    simp only [List.length_append, List.length_cons, List.length_nil] at *
    omega

theorem getLast?_drop_of_lt {α : Type} (l : List α) (k : ℕ) (h : k < l.length) :
    (l.drop k).getLast? = l.getLast? := by
  induction k generalizing l with
  | zero => rfl
  | succ n ih =>
    cases l with
    | nil => simp at h
    | cons a t =>
      simp only [List.drop_succ_cons]
      rw [ih t (by simpa using h)]
      cases t with
      | nil => simp at h
      | cons b u => rw [List.getLast?_cons_cons]

theorem pushBounded_getLast? {α : Type} (cap : ℕ) (hc : 0 < cap) (xs : List α) (x : α) :
    (pushBounded cap xs x).getLast? = some x := by
  unfold pushBounded
  split
  · rename_i h
    rw [getLast?_drop_of_lt]
    · exact List.getLast?_concat xs
    · simp only [List.length_append, List.length_cons, List.length_nil] at *
      omega
  · exact List.getLast?_concat xs

theorem pushBounded_drop {α : Type} (cap : ℕ) (hc : 0 < cap) (xs : List α) (x : α) :
    pushBounded cap (xs.drop (xs.length - cap)) x =
      (xs ++ [x]).drop (xs.length + 1 - cap) := by
  by_cases h : xs.length + 1 ≤ cap
  · have h0 : xs.length - cap = 0 := by omega
    have h1 : xs.length + 1 - cap = 0 := by omega
    rw [h0, h1, List.drop_zero]
    unfold pushBounded
    rw [if_neg]
    · rfl
    · simp only [List.length_append, List.length_cons, List.length_nil, not_lt]
      omega
  · push_neg at h
    have hlen : (xs.drop (xs.length - cap)).length = cap := by
      rw [List.length_drop]; omega
    unfold pushBounded
    rw [if_pos]
    · have hlen2 : (xs.drop (xs.length - cap) ++ [x]).length - cap = 1 := by
        simp only [List.length_append, List.length_cons, List.length_nil, hlen]
        omega
      rw [hlen2, List.drop_append_of_le_length (by omega), List.drop_drop,
        List.drop_append_of_le_length (by omega)]
      congr 2
      omega
    · simp only [List.length_append, List.length_cons, List.length_nil, hlen]
      omega

theorem range'_getLast? (a k : ℕ) :
    (List.range' a k).getLast? = if k = 0 then none else some (a + k - 1) := by
  cases k with
  | zero => rfl
  | succ n =>
    rw [List.range'_concat, List.getLast?_concat, if_neg (Nat.succ_ne_zero n)]
    have harg : a + 1 * n = a + (n + 1) - 1 := by omega
    rw [harg]

theorem pushBounded_range' (cap n : ℕ) (_hc : 0 < cap) :
    pushBounded cap (List.range' (n - cap) (min n cap)) n =
      List.range' (n + 1 - cap) (min (n + 1) cap) := by
  have hsum : (n - cap) + min n cap = n := by omega
  have hcat : List.range' (n - cap) (min n cap) ++ [n] =
      List.range' (n - cap) (min n cap + 1) := by
    rw [List.range'_concat]
    congr 2
    omega
  unfold pushBounded
  rw [hcat]
  by_cases h : n + 1 ≤ cap
  · rw [if_neg (by simp [List.length_range']; omega)]
    have h1 : n - cap = 0 := by omega
    have h2 : n + 1 - cap = 0 := by omega
    have h3 : min n cap + 1 = min (n + 1) cap := by omega
    rw [h1, h2, h3]
  · push_neg at h
    rw [if_pos (by simp [List.length_range']; omega)]
    have h1 : (List.range' (n - cap) (min n cap + 1)).length - cap = 1 := by
      simp [List.length_range']; omega
    rw [h1]
    have h2 : min n cap + 1 = (min (n + 1) cap) + 1 := by omega
    rw [h2, List.range'_succ]
    simp only [List.drop_succ_cons, List.drop_zero]
    have harg : n - cap + 1 = n + 1 - cap := by omega
    rw [harg]

theorem foldStore_append (L : List (ℚ × List (List Char × ℚ)))
    (p : ℚ × List (List Char × ℚ)) :
    foldStore (L ++ [p]) = appendSample p.1 p.2 (foldStore L) := by
  simp [foldStore, List.foldl_append]

theorem foldStore_spec (L : List (ℚ × List (List Char × ℚ))) :
    (foldStore L).maxSamples = 500 ∧
    (foldStore L).sampleIndices = List.range' (L.length - 500) (min L.length 500) ∧
    (foldStore L).timestamps = (L.map Prod.fst).drop (L.length - 500) ∧
    (∀ f, f ∈ fields →
      (foldStore L).buffers f =
        (L.map (fun p => dictLookup p.2 f)).drop (L.length - 500)) := by
  induction L using List.reverseRecOn with
  | nil => exact ⟨rfl, rfl, rfl, fun f _ => rfl⟩
  | append_singleton l p ih =>
    obtain ⟨hmax, hidx, hts, hbuf⟩ := ih
    rw [foldStore_append]
    have hnext : nextIndex (foldStore l) = l.length := by
      unfold nextIndex
      rw [hidx, range'_getLast?]
      by_cases h0 : l.length = 0
      · simp [h0]
      · rw [if_neg (by omega)]
        simp only []
        omega
    refine ⟨by simp [appendSample, hmax], ?_, ?_, ?_⟩
    · show pushBounded (foldStore l).maxSamples (foldStore l).sampleIndices
        (nextIndex (foldStore l)) = _
      rw [hmax, hidx, hnext, pushBounded_range' 500 l.length (by omega)]
      simp [List.length_append]
    · show pushBounded (foldStore l).maxSamples (foldStore l).timestamps p.1 = _
      rw [hmax, hts]
      have := pushBounded_drop 500 (by omega) (l.map Prod.fst) p.1
      rw [List.length_map] at this
      rw [this]
      simp [List.length_append]
    · intro f hf
      show (if f ∈ fields then
          pushBounded (foldStore l).maxSamples ((foldStore l).buffers f)
            (dictLookup p.2 f)
        else (foldStore l).buffers f) = _
      rw [if_pos hf, hmax, hbuf f hf]
      have := pushBounded_drop 500 (by omega)
        (l.map (fun q => dictLookup q.2 f)) (dictLookup p.2 f)
      rw [List.length_map] at this
      rw [this]
      simp [List.length_append]

/-!
## Claim theorems -/

theorem firstNonEmpty_eq_nil (l : List Char) (gs : List Grammar)
    (h : ∀ g, g ∈ gs → findall g l = []) : firstNonEmpty l gs = [] := by
  induction gs with
  | nil => rfl
  | cons g gs ih =>
    unfold firstNonEmpty
    rw [h g (List.mem_cons_self g gs)]
    simpa using ih (fun g' hg' => h g' (List.mem_cons_of_mem g hg'))

/-- C5.  For each of the four grammars, the lines `D:12.5`, `D=12.5`,
`D:12.5cm` and `D=12.5cm` all parse to the single-entry mapping
`{D ↦ 12.5}` (`mkRat 25 2` is the rational 12.5); the unit suffix is
discarded. -/
theorem c5_grammar_examples :
    parse ("D:12.5".data) = [("D".data, mkRat 25 2)] ∧
    parse ("D=12.5".data) = [("D".data, mkRat 25 2)] ∧
    parse ("D:12.5cm".data) = [("D".data, mkRat 25 2)] ∧
    parse ("D=12.5cm".data) = [("D".data, mkRat 25 2)] := by
  exact ⟨by decide, by decide, by decide, by decide⟩

/-- C7.  The parser is a total function; a line that strips to nothing, or
on which no grammar has a match, yields the empty mapping, and
`handle_line` leaves the store untouched on such a line (no sample is
created); in particular the empty line and `garbage no match` yield the
empty mapping. -/
theorem c7_parse_total :
    (∀ line : List Char, pyStrip line = [] → parse line = []) ∧
    (∀ line : List Char, (∀ g, g ∈ grammars → findall g (pyStrip line) = []) →
      parse line = []) ∧
    (∀ (line : List Char) (t : ℚ) (s : Store), parse line = [] →
      handleLine t line s = s) ∧
    parse ("".data) = [] ∧
    parse ("garbage no match".data) = [] := by
  refine ⟨?_, ?_, ?_, by decide, by decide⟩
  · intro line h
    unfold parse
    rw [if_pos (by simp [h])]
  · intro line h
    unfold parse
    split
    · rfl
    · unfold parseLine winningMatches
      rw [firstNonEmpty_eq_nil _ _ h]
      rfl
  · intro line t s h
    unfold handleLine
    rw [if_pos (by simp [h])]

/-- Witness for C7 at concrete inputs: a whitespace-only line, the empty
line and an unmatched line all yield the empty mapping and leave the store
unchanged. -/
theorem c7_parse_total_witness :
    pyStrip ("   ".data) = [] ∧ parse ("   ".data) = [] ∧
    parse ("garbage no match".data) = [] ∧
    handleLine 0 ("garbage no match".data) initStore = initStore := by
  refine ⟨by decide, c7_parse_total.1 _ (by decide), c7_parse_total.2.2.2.2,
    c7_parse_total.2.2.1 _ 0 initStore c7_parse_total.2.2.2.2⟩

/-- C10.  The lookup of any key in the parsed mapping is the value of the
last occurrence of that key among the winning grammar's (converted)
matches — later tokens with an equal key overwrite earlier ones — and
concretely `D:1 D:2` parses to `{D ↦ 2}`. -/
theorem c10_last_occurrence_wins :
    (∀ (line : List Char) (k : List Char),
      dictLookup (parseLine line) k =
        ((convPairs (winningMatches line)).reverse.find?
          (fun p => p.1 == k)).map (fun p => p.2)) ∧
    parse ("D:1 D:2".data) = [("D".data, 2)] := by
  constructor
  · intro line k
    unfold parseLine
    exact dictLookup_buildDict _ k
  · decide

/-- C6.  The grammars are tried in the fixed priority order and the first
grammar with at least one match on the line wins: the parsed mapping is
built from that grammar's matches alone, so matches of different grammars
are never combined. -/
theorem c6_first_grammar_wins (line : List Char) (i : ℕ) (hi : i < grammars.length)
    (hne : findall (grammars.get ⟨i, hi⟩) line ≠ [])
    (hprev : ∀ j (hj : j < i), findall (grammars.get ⟨j, Nat.lt_trans hj hi⟩) line = []) :
    winningMatches line = findall (grammars.get ⟨i, hi⟩) line ∧
    parseLine line = buildDict (convPairs (findall (grammars.get ⟨i, hi⟩) line)) := by
  have hidx : i < 4 := hi
  have hstep : ∀ g gs, findall g line = [] →
      firstNonEmpty line (g :: gs) = firstNonEmpty line gs := by
    intro g gs hg
    show (if (findall g line).isEmpty then firstNonEmpty line gs
      else findall g line) = _
    rw [hg]
    rfl
  have hstop : ∀ g gs, findall g line ≠ [] →
      firstNonEmpty line (g :: gs) = findall g line := by
    intro g gs hg
    show (if (findall g line).isEmpty then firstNonEmpty line gs
      else findall g line) = _
    rw [if_neg (by simpa using hg)]
  have hwin : winningMatches line = findall (grammars.get ⟨i, hi⟩) line := by
    unfold winningMatches grammars
    interval_cases i
    · exact hstop _ _ hne
    · have h0 : findall ⟨false, ':', false⟩ line = [] := hprev 0 (by omega)
      rw [hstep _ _ h0]
      exact hstop _ _ hne
    · have h0 : findall ⟨false, ':', false⟩ line = [] := hprev 0 (by omega)
      have h1 : findall ⟨true, '=', false⟩ line = [] := hprev 1 (by omega)
      rw [hstep _ _ h0, hstep _ _ h1]
      exact hstop _ _ hne
    · have h0 : findall ⟨false, ':', false⟩ line = [] := hprev 0 (by omega)
      have h1 : findall ⟨true, '=', false⟩ line = [] := hprev 1 (by omega)
      have h2 : findall ⟨true, ':', true⟩ line = [] := hprev 2 (by omega)
      rw [hstep _ _ h0, hstep _ _ h1, hstep _ _ h2]
      exact hstop _ _ hne
  exact ⟨hwin, by unfold parseLine; rw [hwin]⟩

/-- Witness for C6: on `D:12.5 fom=3` the first grammar (`key:value`)
already matches, so only its matches are honoured — the mapping is
`{D ↦ 12.5}` and the `fom=3` token of the second grammar is ignored. -/
theorem c6_first_grammar_wins_witness :
    findall (grammars.get ⟨0, by decide⟩) ("D:12.5 fom=3".data) ≠ [] ∧
    parseLine ("D:12.5 fom=3".data) =
      buildDict (convPairs (findall (grammars.get ⟨0, by decide⟩) ("D:12.5 fom=3".data))) ∧
    parse ("D:12.5 fom=3".data) = [("D".data, mkRat 25 2)] := by
  refine ⟨by decide, ?_, by decide⟩
  exact (c6_first_grammar_wins ("D:12.5 fom=3".data) 0 (by decide) (by decide)
    (fun j hj => absurd hj (Nat.not_lt_zero j))).2

/-- The events of a run over four consecutive transport errors with the
default bound of 3: one open attempt plus a numbered retry status and a 1s
pause per tolerated error, then a final open attempt and the terminal
failure. -/
def fourErrorEvents : List ReaderEvent :=
  [ReaderEvent.openAttempt, ReaderEvent.statusRetry 1 3, ReaderEvent.sleepMs 1000,
   ReaderEvent.openAttempt, ReaderEvent.statusRetry 2 3, ReaderEvent.sleepMs 1000,
   ReaderEvent.openAttempt, ReaderEvent.statusRetry 3 3, ReaderEvent.sleepMs 1000,
   ReaderEvent.openAttempt, ReaderEvent.terminalFailure]

/-- C1.  With max reconnect attempts 3, four consecutive transport errors
drive the reader to the terminal `failed` state after the third retry:
exactly 3 retry status events are emitted, the open is attempted 4 times
(the initial attempt plus 3 retries, never a 4th retry), the loop exits
without consuming any further iteration, and in general every transport
error increments the reconnect counter and, while the counter is within
the bound, emits a status message and pauses 1s before the open is
retried. -/
theorem c1_reconnect_policy :
    (∀ os : List IterOutcome,
      readerRun 3 initReader (List.replicate 4 IterOutcome.serialErr ++ os) =
        ({ portOpen := false, reconnectCount := 4, status := LinkStatus.failed },
          fourErrorEvents)) ∧
    fourErrorEvents.countP isStatusEvent = 3 ∧
    fourErrorEvents.countP isOpenAttemptEvent = 4 ∧
    (∀ st : ReaderState, st.reconnectCount + 1 ≤ 3 →
      readerStep 3 st IterOutcome.serialErr =
        ({ portOpen := st.portOpen, reconnectCount := st.reconnectCount + 1,
            status := st.status },
          (if st.portOpen then [] else [ReaderEvent.openAttempt]) ++
            [ReaderEvent.statusRetry (st.reconnectCount + 1) 3,
              ReaderEvent.sleepMs 1000], true)) := by
  refine ⟨fun os => rfl, by decide, by decide, ?_⟩
  intro st h
  simp [readerStep, h]

/-- Witness for C1: the run on exactly four errors, and one within-bound
error step from the initial state. -/
theorem c1_reconnect_policy_witness :
    initReader.reconnectCount + 1 ≤ 3 ∧
    readerRun 3 initReader (List.replicate 4 IterOutcome.serialErr) =
      ({ portOpen := false, reconnectCount := 4, status := LinkStatus.failed },
        fourErrorEvents) ∧
    readerStep 3 initReader IterOutcome.serialErr =
      ({ portOpen := false, reconnectCount := 1, status := LinkStatus.running },
        [ReaderEvent.openAttempt, ReaderEvent.statusRetry 1 3,
          ReaderEvent.sleepMs 1000], true) := by
  refine ⟨by decide, ?_, ?_⟩
  · have h := c1_reconnect_policy.1 []
    simpa using h
  · have h := c1_reconnect_policy.2.2.2 initReader (by decide)
    simpa [initReader] using h

/-- C8, counterexample.  The claim says invalid byte sequences are
replaced during the decode; the source decodes with `errors="ignore"`,
which drops them.  On the single invalid byte `0xFF` the reader emits no
line event at all, although the replacement decode of the claim would
produce the non-empty trimmed line `�`. -/
theorem c8_replace_counterexample :
    (readerStep 3 { portOpen := true, reconnectCount := 0, status := LinkStatus.running }
      (IterOutcome.lineBytes [255])).2.1 = [] ∧
    pyStrip (utf8Decode [Char.ofNat 0xFFFD] [255]) ≠ [] ∧
    utf8Decode [] [255] ≠ utf8Decode [Char.ofNat 0xFFFD] [255] := by
  refine ⟨by decide, by decide, by decide⟩

/-- C8, amended.  Every received line of bytes is decoded leniently with
`errors="ignore"` — invalid byte sequences are dropped rather than causing
a decode failure — then trimmed, and the line-received event is emitted if
and only if the trimmed result is non-empty; the reader state is unchanged
and the loop continues. -/
theorem c8_line_emission (maxA : ℕ) (st : ReaderState) (bs : List ℕ)
    (h : st.portOpen = true) :
    (readerStep maxA st (IterOutcome.lineBytes bs)).2.1 =
      (if (pyStrip (utf8Decode [] bs)).isEmpty then []
       else [ReaderEvent.dataReceived (pyStrip (utf8Decode [] bs))]) ∧
    (readerStep maxA st (IterOutcome.lineBytes bs)).1 = st ∧
    (readerStep maxA st (IterOutcome.lineBytes bs)).2.2 = true := by
  refine ⟨?_, ?_, rfl⟩
  · simp [readerStep, openEvents, h]
  · simp [readerStep, afterOpen, h]

/-- Witness for C8: an open port receiving the ASCII bytes of `Hi` emits
exactly the line event `Hi`. -/
theorem c8_line_emission_witness :
    ({ portOpen := true, reconnectCount := 0, status := LinkStatus.running } :
        ReaderState).portOpen = true ∧
    (readerStep 3 { portOpen := true, reconnectCount := 0, status := LinkStatus.running }
      (IterOutcome.lineBytes [72, 105])).2.1 =
      [ReaderEvent.dataReceived ['H', 'i']] := by
  refine ⟨rfl, ?_⟩
  have h := (c8_line_emission 3
    { portOpen := true, reconnectCount := 0, status := LinkStatus.running }
    [72, 105] rfl).1
  rw [h]
  decide

/-- C9.  A render decision that fires (strictly more than the interval
since the last render) updates the last-render time to now; one that does
not fire leaves the throttle unchanged; and in a sequence of three calls
where the second falls within the interval of the first and the third
falls after it, the decisions are true, false, true. -/
theorem c9_render_throttle (th : Throttle) (t1 t2 t3 : ℚ)
    (h1 : th.updateInterval < t1 - th.lastUpdateTime)
    (h2 : t2 - t1 ≤ th.updateInterval)
    (h3 : th.updateInterval < t3 - t1) :
    (shouldRender t1 th).1 = true ∧
    (shouldRender t1 th).2.lastUpdateTime = t1 ∧
    (shouldRender t2 (shouldRender t1 th).2).1 = false ∧
    (shouldRender t2 (shouldRender t1 th).2).2 = (shouldRender t1 th).2 ∧
    (shouldRender t3 (shouldRender t2 (shouldRender t1 th).2).2).1 = true ∧
    (shouldRender t3 (shouldRender t2 (shouldRender t1 th).2).2).2.lastUpdateTime = t3 ∧
    (∀ (now : ℚ) (u : Throttle),
      ((shouldRender now u).1 = true → (shouldRender now u).2.lastUpdateTime = now) ∧
      ((shouldRender now u).1 = false → (shouldRender now u).2 = u)) := by
  have s1 : shouldRender t1 th =
      (true, { lastUpdateTime := t1, updateInterval := th.updateInterval }) := by
    unfold shouldRender
    rw [if_pos h1]
  have s2 : shouldRender t2 { lastUpdateTime := t1, updateInterval := th.updateInterval } =
      (false, { lastUpdateTime := t1, updateInterval := th.updateInterval }) := by
    unfold shouldRender
    rw [if_neg (by simpa using not_lt.mpr h2)]
  have s3 : shouldRender t3 { lastUpdateTime := t1, updateInterval := th.updateInterval } =
      (true, { lastUpdateTime := t3, updateInterval := th.updateInterval }) := by
    unfold shouldRender
    rw [if_pos (by simpa using h3)]
  refine ⟨by rw [s1], by rw [s1], by rw [s1, s2], by rw [s1, s2], by rw [s1, s2, s3],
    by rw [s1, s2, s3], ?_⟩
  intro now u
  constructor
  · intro hr
    unfold shouldRender at *
    split at hr
    · rename_i hcond
      simp [if_pos hcond]
    · simp at hr
  · intro hr
    unfold shouldRender at *
    split at hr
    · simp at hr
    · rename_i hcond
      simp [if_neg hcond]

/-- Witness for C9: with the initial throttle (last render 0, interval
20ms) and calls at 100, 110 and 130 milliseconds, the decisions are true,
false, true. -/
theorem c9_render_throttle_witness :
    initThrottle.updateInterval < 100 - initThrottle.lastUpdateTime ∧
    (110 : ℚ) - 100 ≤ initThrottle.updateInterval ∧
    initThrottle.updateInterval < (130 : ℚ) - 100 ∧
    (shouldRender 100 initThrottle).1 = true ∧
    (shouldRender 110 (shouldRender 100 initThrottle).2).1 = false ∧
    (shouldRender 130 (shouldRender 110 (shouldRender 100 initThrottle).2).2).1 = true := by
  have h1 : initThrottle.updateInterval < 100 - initThrottle.lastUpdateTime := by
    unfold initThrottle
    norm_num
  have h2 : (110 : ℚ) - 100 ≤ initThrottle.updateInterval := by
    unfold initThrottle
    norm_num
  have h3 : initThrottle.updateInterval < (130 : ℚ) - 100 := by
    unfold initThrottle
    norm_num
  have h := c9_render_throttle initThrottle 100 110 130 h1 h2 h3
  exact ⟨h1, h2, h3, h.1, h.2.2.1, h.2.2.2.2.1⟩

/-- C3.  Each appended sample's index is the previous sample's index plus
one, or zero when the index series is empty; in particular after a
`clear_data` (which empties all series) the next appended sample gets
index zero. -/
theorem c3_index_increment (s : Store) (t : ℚ) (vals : List (List Char × ℚ))
    (h : 0 < s.maxSamples) :
    (appendSample t vals s).sampleIndices.getLast? =
      some (match s.sampleIndices.getLast? with
        | some i => i + 1
        | none => 0) ∧
    (appendSample t vals (clearData s)).sampleIndices.getLast? = some 0 := by
  constructor
  · show (pushBounded s.maxSamples s.sampleIndices (nextIndex s)).getLast? = _
    rw [pushBounded_getLast? s.maxSamples h]
    rfl
  · show (pushBounded (clearData s).maxSamples (clearData s).sampleIndices
      (nextIndex (clearData s))).getLast? = _
    rw [pushBounded_getLast? (clearData s).maxSamples h]
    rfl

/-- Witness for C3: on the fresh store the first sample gets index 0, and
appending after a clear again gives index 0. -/
theorem c3_index_increment_witness :
    0 < initStore.maxSamples ∧
    (appendSample 0 [] initStore).sampleIndices.getLast? = some 0 ∧
    (appendSample 0 [] (clearData initStore)).sampleIndices.getLast? = some 0 := by
  refine ⟨by decide, ?_, (c3_index_increment initStore 0 [] (by decide)).2⟩
  have h := (c3_index_increment initStore 0 [] (by decide)).1
  simpa using h

/-- The store invariant of the spec: every per-field series has the same
length as the shared index series, and so does the timestamp series
(every sample in the store carries an entry — possibly the
missing-sentinel — for every known field). -/
def storeInv (s : Store) : Prop :=
  (∀ f, f ∈ fields → (s.buffers f).length = s.sampleIndices.length) ∧
  s.timestamps.length = s.sampleIndices.length

/-- C4.  The store invariant is preserved by every append and by clear. -/
theorem c4_store_invariant (s : Store) (t : ℚ) (vals : List (List Char × ℚ))
    (h : storeInv s) :
    storeInv (appendSample t vals s) ∧ storeInv (clearData s) := by
  obtain ⟨hbuf, hts⟩ := h
  refine ⟨⟨?_, ?_⟩, ⟨?_, ?_⟩⟩
  · intro f hf
    show (if f ∈ fields then
        pushBounded s.maxSamples (s.buffers f) (dictLookup vals f)
      else s.buffers f).length = _
    rw [if_pos hf]
    show _ = (pushBounded s.maxSamples s.sampleIndices (nextIndex s)).length
    rw [pushBounded_length, pushBounded_length, hbuf f hf]
  · show (pushBounded s.maxSamples s.timestamps t).length =
      (pushBounded s.maxSamples s.sampleIndices (nextIndex s)).length
    rw [pushBounded_length, pushBounded_length, hts]
  · intro f hf
    show (if f ∈ fields then [] else s.buffers f).length = _
    rw [if_pos hf]
    rfl
  · rfl

/-- Witness for C4: the fresh store satisfies the invariant and keeps it
after one append and after a clear. -/
theorem c4_store_invariant_witness :
    storeInv initStore ∧
    storeInv (appendSample 0 [] initStore) ∧
    storeInv (clearData initStore) := by
  have hinv : storeInv initStore := ⟨fun f _ => rfl, rfl⟩
  exact ⟨hinv, (c4_store_invariant initStore 0 [] hinv).1,
    (c4_store_invariant initStore 0 [] hinv).2⟩

/-- C2.  Appending N > 500 samples to the fresh store leaves exactly 500
entries: the index series is the contiguous increasing range of the most
recent 500 indices, and every per-field series (and the timestamp series)
holds exactly the values of the most recent 500 appends — the oldest
entries are evicted first. -/
theorem c2_fifo_eviction (L : List (ℚ × List (List Char × ℚ))) (h : 500 < L.length) :
    (foldStore L).sampleIndices.length = 500 ∧
    (foldStore L).sampleIndices = List.range' (L.length - 500) 500 ∧
    (∀ f, f ∈ fields →
      (foldStore L).buffers f =
        (L.map (fun p => dictLookup p.2 f)).drop (L.length - 500)) ∧
    (foldStore L).timestamps = (L.map Prod.fst).drop (L.length - 500) := by
  obtain ⟨-, hidx, hts, hbuf⟩ := foldStore_spec L
  have hmin : min L.length 500 = 500 := by omega
  rw [hmin] at hidx
  exact ⟨by rw [hidx, List.length_range'], hidx, hbuf, hts⟩

/-- Witness for C2: after 501 appends of the same sample the store keeps
the 500 most recent indices `1..500`. -/
theorem c2_fifo_eviction_witness :
    500 < (List.replicate 501 ((0 : ℚ), [("D".data, (1 : ℚ))])).length ∧
    (foldStore (List.replicate 501 ((0 : ℚ), [("D".data, (1 : ℚ))]))).sampleIndices =
      List.range' 1 500 := by
  constructor
  · rw [List.length_replicate]
    omega
  · have h := (c2_fifo_eviction (List.replicate 501 ((0 : ℚ), [("D".data, (1 : ℚ))]))
      (by rw [List.length_replicate]; omega)).2.1
    rw [List.length_replicate] at h
    norm_num at h
    exact h
